import Mathlib

/-!
Verification of the StarRocks bitmap index specification and of the parquet
page-reader / compression-context-pool sources.

The bitmap index writer/reader/iterator implementation
(`storage/rowset/bitmap_index_writer.*`, `bitmap_index_reader.*`) is not part
of the provided sources — only its test `bitmap_index_test.cpp` is — so the
bitmap index is modelled from the specification (sections 3, 4.1, 4.3).
`PageReader` and `CompressionContextPool` are embedded directly from
`be/src/formats/parquet/page_reader.cpp`.
-/

namespace StarRocks

/-- Error kinds mirroring the `Status` codes used by the source and the spec:
`OutOfRange` (bitmap index reads), `InternalError`, `EndOfFile`, `Corruption`
(`PageReader`). -/
inductive Err where
  | outOfRange
  | internalError
  | endOfFile
  | corruption
  deriving DecidableEq, Repr

/-! ## Bitmap index, modelled from the spec -/

/-- Modelled from the spec: the bitmap index writer (missing from the provided
sources; only its test is present).  Per spec §4.1, the writer accumulates rows
in order: `add_values` appends non-null values, `add_nulls` appends null row
positions, and "that order defines row positions 0..N-1".  A row is `some v`
for a non-null value `v` and `none` for a null row. -/
structure BitmapIndexWriter where
  rows : List (Option Int)
  deriving DecidableEq, Repr

/-- Modelled from the spec: `add_values(values, count)` appends `count`
non-null values in row order (spec §4.1). -/
def BitmapIndexWriter.add_values (w : BitmapIndexWriter) (vs : List Int) : BitmapIndexWriter :=
  ⟨w.rows ++ vs.map Option.some⟩

/-- Modelled from the spec: `add_nulls(count)` appends `count` consecutive null
row positions at the current row-position cursor (spec §4.1). -/
def BitmapIndexWriter.add_nulls (w : BitmapIndexWriter) (n : Nat) : BitmapIndexWriter :=
  ⟨w.rows ++ List.replicate n none⟩

/-- Modelled from the spec: the Dictionary is the "sorted, deduplicated list of
a column's distinct indexed values" (spec glossary, §3). -/
def dict (w : BitmapIndexWriter) : List Int :=
  List.insertionSort (· ≤ ·) (w.rows.filterMap id).dedup

/-- Modelled from the spec: `distinct_count`, the number of dictionary
entries. -/
def distinctCount (w : BitmapIndexWriter) : Nat :=
  (dict w).length

/-- Modelled from the spec: `bitmap_nums()` "returns `distinct_count`, the
total number of ordinals (dictionary size)" (spec §4.3). -/
def bitmap_nums (w : BitmapIndexWriter) : Nat :=
  distinctCount w

/-- Modelled from the spec: the set of row positions at which value `v`
occurs. -/
def posSetOf (w : BitmapIndexWriter) (v : Int) : Finset Nat :=
  (Finset.range w.rows.length).filter (fun r => w.rows.getD r none = some v)

/-- Modelled from the spec: the Position Set of ordinal `o` — the row positions
holding the dictionary value of sorted rank `o` (spec §3); empty beyond the
dictionary. -/
def posSet (w : BitmapIndexWriter) (o : Nat) : Finset Nat :=
  ((dict w)[o]?).elim ∅ (posSetOf w)

/-- Modelled from the spec: the Null Set, "the set of Row Positions whose value
is null" (spec §3). -/
def nullSet (w : BitmapIndexWriter) : Finset Nat :=
  (Finset.range w.rows.length).filter (fun r => w.rows.getD r none = none)

/-- Modelled from the spec: the ordinal of a value is its sorted rank in the
dictionary (spec §3), i.e. the number of dictionary entries strictly below
it; for an absent value this is "the standard lower-bound position for
insertion" (spec §4.3). -/
def ordinalOf (w : BitmapIndexWriter) (v : Int) : Nat :=
  (dict w).countP (fun u => decide (u < v))

/-- Modelled from the spec: `seek_dictionary(value) -> (ordinal, exact_match)`
(spec §4.3): binary search of the sorted dictionary, `exact_match` true iff the
value is present, and the cursor set to the value's ordinal (present) or to the
lower-bound ordinal (absent).  Returned as `(exact_match, current_ordinal)`. -/
def seek_dictionary (w : BitmapIndexWriter) (v : Int) : Bool × Nat :=
  (decide (v ∈ dict w), ordinalOf w v)

/-- Modelled from the spec: `read_bitmap(ordinal)` "loads and returns the
Position Set for a single ordinal. Fails with OutOfRange if
`ordinal >= distinct_count`" (spec §4.3). -/
def read_bitmap (w : BitmapIndexWriter) (o : Nat) : Except Err (Finset Nat) :=
  if o < distinctCount w then .ok (posSet w o) else .error .outOfRange

/-- Modelled from the spec: `read_union_bitmap(start_ordinal, end_ordinal)`
"returns the union of Position Sets for ordinals in the half-open range
`[start_ordinal, end_ordinal)`.  An empty range yields an empty set, not an
error.  Fails with OutOfRange if `end_ordinal > distinct_count`" (spec §4.3).
The result is accumulated into the caller-supplied set `acc`: the test
`test_invert` (part_000 lines 111-122) passes the bitmap obtained from a prior
`read_bitmap` (holding `{2}`) into `read_union_bitmap(9216, 10240)` over 1024
singleton Position Sets and asserts cardinality 1025, while a freshly created
bitmap passed to `read_union_bitmap(0, 1024)` (lines 128-130) yields exactly
1024 — so the out-parameter is unioned into, not overwritten. -/
def read_union_bitmap (w : BitmapIndexWriter) (a b : Nat) (acc : Finset Nat) :
    Except Err (Finset Nat) :=
  if b ≤ a then .ok acc
  else if distinctCount w < b then .error .outOfRange
  else .ok (acc ∪ (Finset.Ico a b).biUnion (posSet w))

/-- Modelled from the spec: `read_null_bitmap()` "returns the Null Set; returns
an empty set (not an error) if the index was built with zero nulls"
(spec §4.3). -/
def read_null_bitmap (w : BitmapIndexWriter) : Finset Nat :=
  nullSet w

/-- Modelled from the spec: one call of the write path (spec §4.1). -/
inductive WriteOp where
  | values (vs : List Int)
  | nulls (n : Nat)
  deriving DecidableEq, Repr

/-- Modelled from the spec: applying one write call to the writer. -/
def applyOp (w : BitmapIndexWriter) : WriteOp → BitmapIndexWriter
  | .values vs => w.add_values vs
  | .nulls n => w.add_nulls n

/-- Modelled from the spec: the index built by a sequence of
`add_values`/`add_nulls` calls starting from a fresh writer. -/
def buildIndex (ops : List WriteOp) : BitmapIndexWriter :=
  ops.foldl applyOp ⟨[]⟩

/-- Total number of null positions supplied via `add_nulls` calls in a write
sequence. -/
def totalNulls : List WriteOp → Nat
  | [] => 0
  | .values _ :: ops => totalNulls ops
  | .nulls n :: ops => n + totalNulls ops

/-! ## Helper lemmas on strictly sorted lists -/

/-- In a strictly sorted list, the count of entries below `v` is the partition
point: position `j` is below it exactly when the entry at `j` is below `v`. -/
lemma countP_lt_iff (v : Int) :
    ∀ (l : List Int), l.Sorted (· < ·) → ∀ (j : Nat), (hj : j < l.length) →
      (j < l.countP (fun u => decide (u < v)) ↔ l[j] < v)
  | [], _, j, hj => by simp at hj
  | x :: xs, hl, j, hj => by
    have hx : ∀ u ∈ xs, x < u := (List.sorted_cons.mp hl).1
    have hxs : xs.Sorted (· < ·) := (List.sorted_cons.mp hl).2
    rw [List.countP_cons]
    by_cases hxv : x < v
    · cases j with
      | zero => simp [hxv]
      | succ j =>
        have hj' : j < xs.length := Nat.lt_of_succ_lt_succ hj
        have h := countP_lt_iff v xs hxs j hj'
        simpa [hxv, Nat.succ_lt_succ_iff] using h
    · have h0 : xs.countP (fun u => decide (u < v)) = 0 :=
        List.countP_eq_zero.mpr fun u hu => by
          simp only [decide_eq_true_eq]
          exact fun huv => hxv ((hx u hu).trans huv)
      cases j with
      | zero => simp [hxv, h0]
      | succ j =>
        have hj' : j < xs.length := Nat.lt_of_succ_lt_succ hj
        have hmem : xs[j] ∈ xs := List.getElem_mem hj'
        have hnl : ¬ xs[j] < v := fun hlt => absurd ((hx _ hmem).trans hlt) hxv
        simp [h0, hxv, hnl]

/-- In a strictly sorted list, the entry at the partition point of `v` is `v`
itself whenever `v` occurs in the list. -/
lemma getElem?_countP_of_mem {l : List Int} (hl : l.Sorted (· < ·)) {v : Int} (hv : v ∈ l) :
    l[l.countP (fun u => decide (u < v))]? = some v := by
  obtain ⟨⟨i, hi⟩, rfl⟩ := List.mem_iff_get.mp hv
  rw [List.get_eq_getElem]
  have hmono : ∀ (j1 j2 : Nat) (h1 : j1 < l.length) (h2 : j2 < l.length), j1 < j2 →
      l[j1] < l[j2] := by
    intro j1 j2 h1 h2 h12
    have := List.pairwise_iff_get.mp hl ⟨j1, h1⟩ ⟨j2, h2⟩ h12
    simpa [List.get_eq_getElem] using this
  have hk := List.countP_le_length (fun u => decide (u < l[i])) (l := l)
  set k := l.countP (fun u => decide (u < l[i])) with hkdef
  have h1 : ¬ i < k := fun hik =>
    absurd ((countP_lt_iff l[i] l hl i hi).mp hik) (lt_irrefl _)
  have h2 : ¬ k < i := by
    intro hki
    have hkl : k < l.length := lt_trans hki hi
    have : k < k := (countP_lt_iff l[i] l hl k hkl).mpr (hmono k i hkl hi hki)
    exact absurd this (lt_irrefl _)
  have : k = i := by omega
  rw [this, List.getElem?_eq_getElem hi]

/-- In a strictly sorted list, the value found at position `o` has partition
point exactly `o`. -/
lemma countP_of_getElem? {l : List Int} (hl : l.Sorted (· < ·)) {o : Nat} {v : Int}
    (h : l[o]? = some v) : l.countP (fun u => decide (u < v)) = o := by
  obtain ⟨ho, hv⟩ := List.getElem?_eq_some.mp h
  subst hv
  have hmono : ∀ (j1 j2 : Nat) (h1 : j1 < l.length) (h2 : j2 < l.length), j1 < j2 →
      l[j1] < l[j2] := by
    intro j1 j2 h1 h2 h12
    have := List.pairwise_iff_get.mp hl ⟨j1, h1⟩ ⟨j2, h2⟩ h12
    simpa [List.get_eq_getElem] using this
  set k := l.countP (fun u => decide (u < l[o])) with hkdef
  have hk := List.countP_le_length (fun u => decide (u < l[o])) (l := l)
  have h1 : ¬ o < k := fun hik =>
    absurd ((countP_lt_iff l[o] l hl o ho).mp hik) (lt_irrefl _)
  have h2 : ¬ k < o := by
    intro hko
    have hkl : k < l.length := lt_trans hko ho
    have : k < k := (countP_lt_iff l[o] l hl k hkl).mpr (hmono k o hkl ho hko)
    exact absurd this (lt_irrefl _)
  omega

/-! ## Facts about the modelled dictionary -/

lemma dict_sorted (w : BitmapIndexWriter) : (dict w).Sorted (· < ·) := by
  have h1 : (dict w).Sorted (· ≤ ·) := List.sorted_insertionSort _ _
  have h2 : (dict w).Nodup :=
    ((List.perm_insertionSort (· ≤ ·) _).nodup_iff).mpr (List.nodup_dedup _)
  exact h1.lt_of_le h2

lemma mem_dict {w : BitmapIndexWriter} {v : Int} : v ∈ dict w ↔ some v ∈ w.rows := by
  rw [dict, (List.perm_insertionSort _ _).mem_iff, List.mem_dedup, List.mem_filterMap]
  simp

/-- A value present in the dictionary sits at position `ordinalOf`. -/
lemma dict_getElem?_ordinalOf (w : BitmapIndexWriter) {v : Int} (hv : v ∈ dict w) :
    (dict w)[ordinalOf w v]? = some v :=
  getElem?_countP_of_mem (dict_sorted w) hv

lemma ordinalOf_lt_distinctCount (w : BitmapIndexWriter) {v : Int} (hv : v ∈ dict w) :
    ordinalOf w v < distinctCount w := by
  obtain ⟨h, _⟩ := List.getElem?_eq_some.mp (dict_getElem?_ordinalOf w hv)
  exact h

/-- The ordinal of the value stored at position `o` is `o` itself. -/
lemma ordinalOf_of_getElem? (w : BitmapIndexWriter) {o : Nat} {v : Int}
    (h : (dict w)[o]? = some v) : ordinalOf w v = o :=
  countP_of_getElem? (dict_sorted w) h

lemma posSet_ordinalOf (w : BitmapIndexWriter) {v : Int} (hv : v ∈ dict w) :
    posSet w (ordinalOf w v) = posSetOf w v := by
  rw [posSet, dict_getElem?_ordinalOf w hv]
  rfl

lemma sorted_getElem_mono {l : List Int} (hl : l.Sorted (· < ·)) {j1 j2 : Nat}
    (h1 : j1 < l.length) (h2 : j2 < l.length) (h12 : j1 < j2) : l[j1] < l[j2] := by
  have := List.pairwise_iff_get.mp hl ⟨j1, h1⟩ ⟨j2, h2⟩ h12
  simpa [List.get_eq_getElem] using this

lemma mem_posSetOf {w : BitmapIndexWriter} {r : Nat} {v : Int} :
    r ∈ posSetOf w v ↔ r < w.rows.length ∧ w.rows.getD r none = some v := by
  simp [posSetOf]

lemma mem_nullSet {w : BitmapIndexWriter} {r : Nat} :
    r ∈ nullSet w ↔ r < w.rows.length ∧ w.rows.getD r none = none := by
  simp [nullSet]

lemma getD_some_mem {l : List (Option Int)} {r : Nat} {v : Int}
    (h : l.getD r none = some v) : some v ∈ l := by
  have hr : r < l.length := by
    by_contra hc
    rw [List.getD_eq_getElem?_getD, List.getElem?_eq_none (le_of_not_lt hc)] at h
    simp at h
  rw [List.getD_eq_getElem?_getD, List.getElem?_eq_getElem hr] at h
  simp only [Option.getD_some] at h
  exact h ▸ List.getElem_mem hr

/-! ## Claim theorems: seek and ordinals -/

/-- Concrete example index: four rows holding the distinct values 0,1,2,3. -/
def wEx : BitmapIndexWriter := ⟨[some 0, some 1, some 2, some 3]⟩

/-- Concrete example index with value gaps: rows holding 0, 2, 5. -/
def wExB : BitmapIndexWriter := ⟨[some 0, some 2, some 5]⟩

/-- Claim C2: seeking a value present in the dictionary yields
`exact_match = true`, sets the cursor to that value's ordinal (the dictionary
entry at the returned ordinal is the sought value), and `read_bitmap` at that
ordinal returns exactly the set of row positions at which the value was
added. -/
theorem seek_exact_correct (w : BitmapIndexWriter) (v : Int) (hv : v ∈ dict w) :
    (seek_dictionary w v).1 = true ∧
    (dict w)[(seek_dictionary w v).2]? = some v ∧
    read_bitmap w (seek_dictionary w v).2 = .ok (posSetOf w v) ∧
    (∀ r, r ∈ posSetOf w v ↔ r < w.rows.length ∧ w.rows.getD r none = some v) := by
  refine ⟨by simp [seek_dictionary, hv], dict_getElem?_ordinalOf w hv, ?_,
    fun r => mem_posSetOf⟩
  show read_bitmap w (ordinalOf w v) = .ok (posSetOf w v)
  rw [read_bitmap, if_pos (ordinalOf_lt_distinctCount w hv), posSet_ordinalOf w hv]

/-- Witness for C2 at a concrete index: seeking the present value 2. -/
theorem seek_exact_correct_witness :
    (2 : Int) ∈ dict wEx ∧
    ((seek_dictionary wEx 2).1 = true ∧
     (dict wEx)[(seek_dictionary wEx 2).2]? = some 2 ∧
     read_bitmap wEx (seek_dictionary wEx 2).2 = .ok (posSetOf wEx 2) ∧
     (∀ r, r ∈ posSetOf wEx 2 ↔ r < wEx.rows.length ∧ wEx.rows.getD r none = some 2)) :=
  ⟨by decide, seek_exact_correct wEx 2 (by decide)⟩

/-- Claim C3: seeking a value absent from the dictionary yields
`exact_match = false` and the lower-bound ordinal: every dictionary value
strictly above the sought value is at or after the returned ordinal, whose
entry is the smallest such value; when the sought value exceeds every entry the
ordinal is `distinct_count`. -/
theorem seek_lower_bound (w : BitmapIndexWriter) (v : Int) (hv : v ∉ dict w) :
    (seek_dictionary w v).1 = false ∧
    (seek_dictionary w v).2 ≤ distinctCount w ∧
    ((∀ u ∈ dict w, u < v) → (seek_dictionary w v).2 = distinctCount w) ∧
    (∀ u ∈ dict w, v < u →
      ∃ x, (dict w)[(seek_dictionary w v).2]? = some x ∧ v < x ∧ x ≤ u) := by
  have hsorted := dict_sorted w
  refine ⟨by simp [seek_dictionary, hv], List.countP_le_length _, ?_, ?_⟩
  · intro hall
    exact List.countP_eq_length.mpr fun u hu => by simpa using hall u hu
  · intro u hu huv
    obtain ⟨i, hi, hieq⟩ := List.getElem_of_mem hu
    have hik' : ¬ i < ordinalOf w v := by
      intro hik
      have hlt := (countP_lt_iff v _ hsorted i hi).mp hik
      rw [hieq] at hlt
      exact absurd huv (not_lt.mpr (le_of_lt hlt))
    have hkl : ordinalOf w v < (dict w).length :=
      lt_of_le_of_lt (Nat.le_of_not_lt hik') hi
    refine ⟨(dict w)[ordinalOf w v], List.getElem?_eq_getElem hkl, ?_, ?_⟩
    · have h1 : ¬ (dict w)[ordinalOf w v] < v := by
        intro hlt
        exact absurd ((countP_lt_iff v _ hsorted _ hkl).mpr hlt) (lt_irrefl _)
      have h2 : (dict w)[ordinalOf w v] ≠ v := by
        intro he
        exact hv (he ▸ List.getElem_mem hkl)
      exact lt_of_le_of_ne (not_lt.mp h1) (fun he => h2 he.symm)
    · rcases Nat.lt_or_ge (ordinalOf w v) i with h | h
      · exact le_of_lt (hieq ▸ sorted_getElem_mono hsorted hkl hi h)
      · have hki : ordinalOf w v = i := le_antisymm (Nat.le_of_not_lt hik') h
        subst hki
        exact le_of_eq hieq

/-- Witness for C3 at a concrete index: seeking the absent value 1 in the
dictionary {0, 2, 5}. -/
theorem seek_lower_bound_witness :
    (1 : Int) ∉ dict wExB ∧
    ((seek_dictionary wExB 1).1 = false ∧
     (seek_dictionary wExB 1).2 ≤ distinctCount wExB ∧
     ((∀ u ∈ dict wExB, u < 1) → (seek_dictionary wExB 1).2 = distinctCount wExB) ∧
     (∀ u ∈ dict wExB, 1 < u →
       ∃ x, (dict wExB)[(seek_dictionary wExB 1).2]? = some x ∧ 1 < x ∧ x ≤ u)) :=
  ⟨by decide, seek_lower_bound wExB 1 (by decide)⟩

/-- Claim C4: ordinals are sorted ranks: strictly monotone in the value, they
form exactly the dense range [0, distinct_count), and the smallest indexed
value always receives ordinal 0. -/
theorem ordinal_dense_sorted (w : BitmapIndexWriter) :
    (∀ v1 ∈ dict w, ∀ v2 ∈ dict w, v1 < v2 → ordinalOf w v1 < ordinalOf w v2) ∧
    (∀ v ∈ dict w, ordinalOf w v < distinctCount w) ∧
    (∀ o, o < distinctCount w → ∃ v ∈ dict w, ordinalOf w v = o) ∧
    (∀ v ∈ dict w, (∀ u ∈ dict w, v ≤ u) → ordinalOf w v = 0) := by
  have hsorted := dict_sorted w
  refine ⟨?_, fun v hv => ordinalOf_lt_distinctCount w hv, ?_, ?_⟩
  · intro v1 h1 v2 h2 h12
    obtain ⟨hlt, heq⟩ := List.getElem?_eq_some.mp (dict_getElem?_ordinalOf w h1)
    refine (countP_lt_iff v2 _ hsorted _ hlt).mpr ?_
    rw [heq]
    exact h12
  · intro o ho
    have ho' : o < (dict w).length := ho
    exact ⟨(dict w)[o], List.getElem_mem ho',
      ordinalOf_of_getElem? w (List.getElem?_eq_getElem ho')⟩
  · intro v _ hmin
    exact List.countP_eq_zero.mpr fun u hu => by simpa using not_lt.mpr (hmin u hu)

/-- Witness for C4 at a concrete index. -/
theorem ordinal_dense_sorted_witness :
    (∀ v1 ∈ dict wEx, ∀ v2 ∈ dict wEx, v1 < v2 → ordinalOf wEx v1 < ordinalOf wEx v2) ∧
    (∀ v ∈ dict wEx, ordinalOf wEx v < distinctCount wEx) ∧
    (∀ o, o < distinctCount wEx → ∃ v ∈ dict wEx, ordinalOf wEx v = o) ∧
    (∀ v ∈ dict wEx, (∀ u ∈ dict wEx, v ≤ u) → ordinalOf wEx v = 0) :=
  ordinal_dense_sorted wEx

/-! ## Claim theorems: union, null set, partition, error handling -/

/-- Position Sets of distinct ordinals are disjoint: a row holds exactly one
value. -/
lemma posSet_disjoint (w : BitmapIndexWriter) {o1 o2 : Nat} (h : o1 ≠ o2) :
    Disjoint (posSet w o1) (posSet w o2) := by
  rw [Finset.disjoint_left]
  intro r hr1 hr2
  rw [posSet] at hr1 hr2
  rcases hg1 : (dict w)[o1]? with _ | v1
  · rw [hg1] at hr1
    exact absurd hr1 (Finset.not_mem_empty r)
  rcases hg2 : (dict w)[o2]? with _ | v2
  · rw [hg2] at hr2
    exact absurd hr2 (Finset.not_mem_empty r)
  rw [hg1, Option.elim_some] at hr1
  rw [hg2, Option.elim_some] at hr2
  have e1 := (mem_posSetOf.mp hr1).2
  have e2 := (mem_posSetOf.mp hr2).2
  have hv12 : v1 = v2 := Option.some.inj (e1.symm.trans e2)
  subst hv12
  exact h ((ordinalOf_of_getElem? w hg1).symm.trans (ordinalOf_of_getElem? w hg2))

/-- Claim C1: for `0 ≤ a ≤ b ≤ distinct_count` (= `bitmap_nums()`),
`read_union_bitmap(a, b)` accumulated onto an empty set is exactly the union of
`read_bitmap(o)` over the half-open range `[a, b)`, is the empty set (not an
error) when `a = b`, and over a range of singleton Position Sets has
cardinality `b - a`, including when `b` is `bitmap_nums()` itself. -/
theorem read_union_correct (w : BitmapIndexWriter) (a b : Nat)
    (hab : a ≤ b) (hb : b ≤ bitmap_nums w) :
    ∃ s, read_union_bitmap w a b ∅ = .ok s ∧
      (∀ p, p ∈ s ↔ ∃ o, a ≤ o ∧ o < b ∧ ∃ t, read_bitmap w o = .ok t ∧ p ∈ t) ∧
      (a = b → s = ∅) ∧
      ((∀ o, a ≤ o → o < b → ∃ t, read_bitmap w o = .ok t ∧ t.card = 1) →
        s.card = b - a) := by
  have hbd : b ≤ distinctCount w := hb
  have hread : ∀ o, o < b → read_bitmap w o = .ok (posSet w o) := by
    intro o ho
    rw [read_bitmap, if_pos (lt_of_lt_of_le ho hbd)]
  rcases Nat.eq_or_lt_of_le hab with rfl | hlt
  · refine ⟨∅, ?_, ?_, fun _ => rfl, ?_⟩
    · rw [read_union_bitmap, if_pos (le_refl a)]
    · intro p
      simp only [Finset.not_mem_empty, false_iff]
      rintro ⟨o, h1, h2, _⟩
      omega
    · intro _
      simp
  · refine ⟨(Finset.Ico a b).biUnion (posSet w), ?_, ?_, ?_, ?_⟩
    · rw [read_union_bitmap, if_neg (by omega), if_neg (by omega), Finset.empty_union]
    · intro p
      rw [Finset.mem_biUnion]
      constructor
      · rintro ⟨o, ho, hp⟩
        rw [Finset.mem_Ico] at ho
        exact ⟨o, ho.1, ho.2, posSet w o, hread o ho.2, hp⟩
      · rintro ⟨o, h1, h2, t, ht, hp⟩
        rw [hread o h2] at ht
        obtain rfl : posSet w o = t := Except.ok.inj ht
        exact ⟨o, Finset.mem_Ico.mpr ⟨h1, h2⟩, hp⟩
    · intro he
      exact absurd he (Nat.ne_of_lt hlt)
    · intro hcard
      rw [Finset.card_biUnion (fun x _ y _ hxy => posSet_disjoint w hxy)]
      have hall : ∀ o ∈ Finset.Ico a b, (posSet w o).card = 1 := by
        intro o ho
        rw [Finset.mem_Ico] at ho
        obtain ⟨t, ht, hc⟩ := hcard o ho.1 ho.2
        rw [hread o ho.2] at ht
        obtain rfl : posSet w o = t := Except.ok.inj ht
        exact hc
      rw [Finset.sum_congr rfl hall, Finset.sum_const, smul_eq_mul, mul_one, Nat.card_Ico]

/-- Witness for C1 at a concrete index, with the end bound equal to
`bitmap_nums()`. -/
theorem read_union_correct_witness :
    ((1 : Nat) ≤ 4 ∧ 4 ≤ bitmap_nums wEx) ∧
    (∃ s, read_union_bitmap wEx 1 4 ∅ = .ok s ∧
      (∀ p, p ∈ s ↔ ∃ o, 1 ≤ o ∧ o < 4 ∧ ∃ t, read_bitmap wEx o = .ok t ∧ p ∈ t) ∧
      (1 = 4 → s = ∅) ∧
      ((∀ o, 1 ≤ o → o < 4 → ∃ t, read_bitmap wEx o = .ok t ∧ t.card = 1) →
        s.card = 4 - 1)) :=
  ⟨⟨by decide, by decide⟩, read_union_correct wEx 1 4 (by decide) (by decide)⟩

/-- The accumulator behaviour observed in `test_invert`: unioning a 2-ordinal
range of singleton Position Sets into a non-empty bitmap yields cardinality
2 + 1, the small-scale analogue of the test's `1025` over a 1024-ordinal
range. -/
lemma read_union_bitmap_accumulates :
    read_union_bitmap wEx 2 4 {0} = .ok ({0, 2, 3} : Finset Nat) := by
  have h : ((({0} : Finset Nat) ∪ (Finset.Ico 2 4).biUnion (posSet wEx))
      = ({0, 2, 3} : Finset Nat)) := by decide
  rw [read_union_bitmap, if_neg (by decide), if_neg (by decide), h]

/-- Claim C7: `read_bitmap` fails with OutOfRange for any ordinal at or above
`distinct_count`; `read_union_bitmap` succeeds with the empty set on any empty
range, fails with OutOfRange on a non-empty range whose end bound exceeds
`distinct_count`, and succeeds when the end bound equals `distinct_count`. -/
theorem read_out_of_range (w : BitmapIndexWriter) :
    (∀ o, distinctCount w ≤ o → read_bitmap w o = .error .outOfRange) ∧
    (∀ a b, b ≤ a → read_union_bitmap w a b ∅ = .ok ∅) ∧
    (∀ a b acc, a < b → distinctCount w < b →
      read_union_bitmap w a b acc = .error .outOfRange) ∧
    (∀ acc a, ∃ s, read_union_bitmap w a (distinctCount w) acc = .ok s) := by
  refine ⟨?_, ?_, ?_, ?_⟩
  · intro o ho
    rw [read_bitmap, if_neg (not_lt.mpr ho)]
  · intro a b h
    rw [read_union_bitmap, if_pos h]
  · intro a b acc h1 h2
    rw [read_union_bitmap, if_neg (by omega), if_pos h2]
  · intro acc a
    by_cases h : distinctCount w ≤ a
    · exact ⟨acc, by rw [read_union_bitmap, if_pos h]⟩
    · exact ⟨_, by rw [read_union_bitmap, if_neg h, if_neg (lt_irrefl _)]⟩

/-- Witness for C7 at a concrete index. -/
theorem read_out_of_range_witness :
    (∀ o, distinctCount wEx ≤ o → read_bitmap wEx o = .error .outOfRange) ∧
    (∀ a b, b ≤ a → read_union_bitmap wEx a b ∅ = .ok ∅) ∧
    (∀ a b acc, a < b → distinctCount wEx < b →
      read_union_bitmap wEx a b acc = .error .outOfRange) ∧
    (∀ acc a, ∃ s, read_union_bitmap wEx a (distinctCount wEx) acc = .ok s) :=
  read_out_of_range wEx

/-- Counting a predicate over the row positions of a list equals `countP` on
the list itself. -/
lemma card_filter_range_getD (p : Option Int → Prop) [DecidablePred p] :
    ∀ (l : List (Option Int)),
      ((Finset.range l.length).filter (fun r => p (l.getD r none))).card
        = l.countP (fun x => decide (p x)) := by
  intro l
  induction l using List.reverseRecOn with
  | nil => simp
  | append_singleton l x ih =>
    have hcong : ∀ r ∈ Finset.range l.length,
        (p ((l ++ [x]).getD r none) ↔ p (l.getD r none)) := by
      intro r hr
      rw [Finset.mem_range] at hr
      rw [List.getD_eq_getElem?_getD, List.getD_eq_getElem?_getD,
        List.getElem?_append, if_pos hr]
    have hgetx : (l ++ [x]).getD l.length none = x := by
      rw [List.getD_eq_getElem?_getD, List.getElem?_append_right (le_refl _)]
      simp
    have hlen : (l ++ [x]).length = l.length + 1 := by simp
    rw [hlen, Finset.range_succ, Finset.filter_insert, List.countP_append,
      Finset.filter_congr hcong]
    by_cases hpx : p x
    · rw [if_pos (by rw [hgetx]; exact hpx),
        Finset.card_insert_of_not_mem (by simp), ih]
      simp [hpx]
    · rw [if_neg (by rw [hgetx]; exact hpx), ih]
      simp [hpx]

lemma card_nullSet (w : BitmapIndexWriter) :
    (nullSet w).card = w.rows.countP (fun x => decide (x = none)) :=
  card_filter_range_getD (fun x => x = none) w.rows

/-- The null count of a built index is the sum of the `add_nulls` counts. -/
lemma countP_none_build : ∀ (ops : List WriteOp) (w : BitmapIndexWriter),
    ((ops.foldl applyOp w).rows).countP (fun x => decide (x = none))
      = w.rows.countP (fun x => decide (x = none)) + totalNulls ops := by
  intro ops
  induction ops with
  | nil => intro w; simp [totalNulls]
  | cons op ops ih =>
    intro w
    rw [List.foldl_cons, ih]
    cases op with
    | values vs =>
      have h1 : (vs.map Option.some).countP (fun x => decide (x = none)) = 0 :=
        List.countP_eq_zero.mpr (by
          intro a ha
          obtain ⟨v, _, rfl⟩ := List.mem_map.mp ha
          simp)
      simp [totalNulls, applyOp, BitmapIndexWriter.add_values, List.countP_append, h1]
    | nulls n =>
      have h2 : (List.replicate n (none : Option Int)).countP
          (fun x => decide (x = none)) = n := by
        have hall : ∀ a ∈ List.replicate n (none : Option Int),
            (fun x => decide (x = none)) a = true := by
          intro a ha
          rw [List.eq_of_mem_replicate ha]
          simp
        rw [List.countP_eq_length.mpr hall, List.length_replicate]
      simp only [totalNulls, applyOp, BitmapIndexWriter.add_nulls, List.countP_append, h2]
      omega

/-- Claim C5: the Null Set of an index built by any sequence of
`add_values`/`add_nulls` calls has cardinality exactly the total null count,
and is the empty set (not an error) when that count is zero. -/
theorem null_bitmap_count (ops : List WriteOp) :
    (read_null_bitmap (buildIndex ops)).card = totalNulls ops ∧
    (totalNulls ops = 0 → read_null_bitmap (buildIndex ops) = ∅) := by
  have h : (read_null_bitmap (buildIndex ops)).card = totalNulls ops := by
    rw [read_null_bitmap, card_nullSet, buildIndex, countP_none_build]
    simp
  exact ⟨h, fun h0 => Finset.card_eq_zero.mp (by rw [h, h0])⟩

/-- Concrete write sequence with 30 total nulls worth 2 calls. -/
def opsEx : List WriteOp := [.values [3, 1], .nulls 2, .values [7], .nulls 0]

/-- Witness for C5 at a concrete write sequence. -/
theorem null_bitmap_count_witness :
    (read_null_bitmap (buildIndex opsEx)).card = totalNulls opsEx ∧
    (totalNulls opsEx = 0 → read_null_bitmap (buildIndex opsEx) = ∅) :=
  null_bitmap_count opsEx

lemma filterMap_id_replicate_none (n : Nat) :
    (List.replicate n (none : Option Int)).filterMap id = [] := by
  induction n with
  | zero => rfl
  | succ n ih =>
    rw [List.replicate_succ, List.filterMap_cons_none (by rfl)]
    exact ih

lemma dict_add_nulls (w : BitmapIndexWriter) (n : Nat) :
    dict (w.add_nulls n) = dict w := by
  rw [dict, dict, BitmapIndexWriter.add_nulls]
  simp [List.filterMap_append, filterMap_id_replicate_none]

lemma posSetOf_add_nulls (w : BitmapIndexWriter) (n : Nat) (v : Int) :
    posSetOf (w.add_nulls n) v = posSetOf w v := by
  ext r
  rw [mem_posSetOf, mem_posSetOf]
  show r < (w.rows ++ List.replicate n none).length ∧
      (w.rows ++ List.replicate n none).getD r none = some v ↔ _
  constructor
  · rintro ⟨hr, hg⟩
    by_cases hrl : r < w.rows.length
    · refine ⟨hrl, ?_⟩
      rw [List.getD_eq_getElem?_getD, List.getElem?_append, if_pos hrl] at hg
      rw [List.getD_eq_getElem?_getD]
      exact hg
    · exfalso
      rw [List.getD_eq_getElem?_getD,
        List.getElem?_append_right (Nat.le_of_not_lt hrl),
        List.getElem?_replicate] at hg
      split_ifs at hg <;> simp at hg
  · rintro ⟨hr, hg⟩
    refine ⟨by rw [List.length_append]; omega, ?_⟩
    rw [List.getD_eq_getElem?_getD, List.getElem?_append, if_pos hr]
    rw [List.getD_eq_getElem?_getD] at hg
    exact hg

lemma posSet_add_nulls (w : BitmapIndexWriter) (n : Nat) (o : Nat) :
    posSet (w.add_nulls n) o = posSet w o := by
  rw [posSet, posSet, dict_add_nulls]
  rcases hg : (dict w)[o]? with _ | v
  · rfl
  · rw [Option.elim_some, Option.elim_some, posSetOf_add_nulls]

/-- Claim C6: each row position of a built index lies in exactly one Position
Set when its row is non-null, lies in the Null Set and in no Position Set when
its row is null, and adding nulls leaves every Position Set unchanged. -/
theorem row_partition (w : BitmapIndexWriter) (r : Nat) (hr : r < w.rows.length) :
    (∀ v, w.rows.getD r none = some v → ((∃! o, r ∈ posSet w o) ∧ r ∉ nullSet w)) ∧
    (w.rows.getD r none = none → (r ∈ nullSet w ∧ ∀ o, r ∉ posSet w o)) ∧
    (∀ n o, posSet (w.add_nulls n) o = posSet w o) := by
  refine ⟨?_, ?_, fun n o => posSet_add_nulls w n o⟩
  · intro v hv
    have hvdict : v ∈ dict w := mem_dict.mpr (getD_some_mem hv)
    constructor
    · refine ⟨ordinalOf w v, ?_, ?_⟩
      · show r ∈ posSet w (ordinalOf w v)
        rw [posSet_ordinalOf w hvdict]
        exact mem_posSetOf.mpr ⟨hr, hv⟩
      · intro o ho
        rw [posSet] at ho
        rcases hg : (dict w)[o]? with _ | u
        · rw [hg] at ho
          exact absurd ho (Finset.not_mem_empty r)
        · rw [hg, Option.elim_some] at ho
          have hu : w.rows.getD r none = some u := (mem_posSetOf.mp ho).2
          have huv : u = v := Option.some.inj (hu.symm.trans hv)
          subst huv
          exact (ordinalOf_of_getElem? w hg).symm
    · rw [mem_nullSet]
      rintro ⟨_, hnone⟩
      rw [hv] at hnone
      exact Option.noConfusion hnone
  · intro hnone
    refine ⟨mem_nullSet.mpr ⟨hr, hnone⟩, ?_⟩
    intro o ho
    rw [posSet] at ho
    rcases hg : (dict w)[o]? with _ | u
    · rw [hg] at ho
      exact absurd ho (Finset.not_mem_empty r)
    · rw [hg, Option.elim_some] at ho
      have hu : w.rows.getD r none = some u := (mem_posSetOf.mp ho).2
      rw [hnone] at hu
      exact Option.noConfusion hu

/-- Concrete example index with a duplicated value and a null row. -/
def wExC : BitmapIndexWriter := ⟨[some 5, none, some 5]⟩

/-- Witness for C6 at a concrete index. -/
theorem row_partition_witness :
    0 < wExC.rows.length ∧
    ((∀ v, wExC.rows.getD 0 none = some v →
        ((∃! o, 0 ∈ posSet wExC o) ∧ 0 ∉ nullSet wExC)) ∧
     (wExC.rows.getD 0 none = none → (0 ∈ nullSet wExC ∧ ∀ o, 0 ∉ posSet wExC o)) ∧
     (∀ n o, posSet (wExC.add_nulls n) o = posSet wExC o)) :=
  ⟨by decide, row_partition wExC 0 (by decide)⟩

/-! ## PageReader, embedded from be/src/formats/parquet/page_reader.cpp -/

/-- `kHeaderInitSize` from the source. -/
def kHeaderInitSize : Nat := 1024

/-- The mutable state of a `PageReader`: `_offset`, `_next_header_pos`,
`_start_offset`, `_finish_offset` (the stream handle is passed separately to
each operation). -/
structure PageReaderState where
  offset : Nat
  next_header_pos : Nat
  start_offset : Nat
  finish_offset : Nat
  deriving DecidableEq, Repr

/-- `PageReader::PageReader(stream, start_offset, length)` stores
`_start_offset = start_offset` and `_finish_offset = start_offset + length`;
`_offset` and `_next_header_pos` start at 0. -/
def PageReaderState.init (start_offset length : Nat) : PageReaderState :=
  { offset := 0, next_header_pos := 0, start_offset := start_offset,
    finish_offset := start_offset + length }

/-- `PageReader::read_bytes(buffer, size)`: fails with InternalError when
`_offset + size > _next_header_pos`; otherwise calls
`_stream->get_bytes(buffer, _offset, &nbytes)` — modelled by `stream off req`
returning the byte count read or an error, propagated by `RETURN_IF_ERROR` —
and advances `_offset` by the bytes read.  The pair holds the state after the
call and the returned `Status`; on every error path the state is unchanged, as
in the source. -/
def read_bytes (stream : Nat → Nat → Except Err Nat) (s : PageReaderState)
    (size : Nat) : PageReaderState × Except Err Unit :=
  if s.next_header_pos < s.offset + size then (s, .error .internalError)
  else
    match stream s.offset size with
    | .error e => (s, .error e)
    | .ok nbytes => ({ s with offset := s.offset + nbytes }, .ok ())

/-- `PageReader::skip_bytes(size)`: fails with InternalError when
`_offset + size > _next_header_pos`; otherwise advances `_offset` by
`size`. -/
def skip_bytes (s : PageReaderState) (size : Nat) :
    PageReaderState × Except Err Unit :=
  if s.next_header_pos < s.offset + size then (s, .error .internalError)
  else ({ s with offset := s.offset + size }, .ok ())

/-- The retry loop inside `PageReader::next_header`: starting from
`nbytes = kHeaderInitSize`, clamp the window to the remaining bytes
(`nbytes = min(nbytes, remaining)`), attempt
`deserialize_thrift_msg` on that window — modelled by
`decode offset nb = some (header_length, compressed_page_size)` on success —
and on failure either report Corruption when
`nbytes > parquet_header_max_size || offset + nbytes >= finish` or retry with
`nbytes <<= 2`.  The source loop terminates because the window grows; the
`fuel` argument makes that termination explicit and is chosen large enough by
the caller. -/
def headerLoop (decode : Nat → Nat → Option (Nat × Nat))
    (offset finish maxSize : Nat) : Nat → Nat → Except Err (Nat × Nat)
  | _, 0 => .error .corruption
  | nbytes, fuel + 1 =>
    let nb := min nbytes (finish - offset)
    match decode offset nb with
    | some hd => .ok hd
    | none =>
      if maxSize < nb ∨ finish ≤ offset + nb then .error .corruption
      else headerLoop decode offset finish maxSize (nb <<< 2) fuel

/-- `PageReader::next_header`: InternalError when `_offset` differs from
`_next_header_pos` (state untouched), EndOfFile when `_offset` has reached
`_finish_offset`, otherwise decode a header via the retry loop and on success
advance `_offset` by the decoded header length and set
`_next_header_pos = _offset + header.compressed_page_size`. -/
def next_header (decode : Nat → Nat → Option (Nat × Nat)) (maxSize : Nat)
    (s : PageReaderState) : PageReaderState × Except Err Unit :=
  if s.offset ≠ s.next_header_pos then (s, .error .internalError)
  else if s.finish_offset ≤ s.offset then (s, .error .endOfFile)
  else
    match headerLoop decode s.offset s.finish_offset maxSize kHeaderInitSize
        (s.finish_offset + maxSize + 2) with
    | .error e => (s, .error e)
    | .ok (hl, cps) =>
      ({ s with offset := s.offset + hl, next_header_pos := s.offset + hl + cps },
        .ok ())

/-- Claim C9: `read_bytes` and `skip_bytes` fail with InternalError and leave
the state unchanged whenever `offset + size` exceeds `next_header_pos`; when
the bound holds (and, for `read_bytes`, the stream reads the requested bytes)
both succeed and advance the offset by exactly `size`, which therefore never
moves past the current page's end. -/
theorem read_skip_bytes_bounds (stream : Nat → Nat → Except Err Nat)
    (s : PageReaderState) (size : Nat) :
    (s.next_header_pos < s.offset + size →
      read_bytes stream s size = (s, .error .internalError) ∧
      skip_bytes s size = (s, .error .internalError)) ∧
    (∀ e, stream s.offset size = .error e → s.offset + size ≤ s.next_header_pos →
      read_bytes stream s size = (s, .error e)) ∧
    (s.offset + size ≤ s.next_header_pos → stream s.offset size = .ok size →
      read_bytes stream s size = ({ s with offset := s.offset + size }, .ok ()) ∧
      skip_bytes s size = ({ s with offset := s.offset + size }, .ok ()) ∧
      s.offset + size ≤ s.next_header_pos) := by
  refine ⟨?_, ?_, ?_⟩
  · intro h
    constructor
    · rw [read_bytes, if_pos h]
    · rw [skip_bytes, if_pos h]
  · intro e he h
    rw [read_bytes, if_neg (not_lt.mpr h), he]
  · intro h hs
    refine ⟨?_, ?_, h⟩
    · rw [read_bytes, if_neg (not_lt.mpr h), hs]
    · rw [skip_bytes, if_neg (not_lt.mpr h)]

/-- A stream that always reads the requested bytes. -/
def streamEx : Nat → Nat → Except Err Nat := fun _ req => .ok req

/-- A concrete in-page reader state. -/
def sEx : PageReaderState :=
  { offset := 10, next_header_pos := 20, start_offset := 0, finish_offset := 100 }

/-- Witness for C9 at a concrete state and stream. -/
theorem read_skip_bytes_bounds_witness :
    (sEx.offset + 5 ≤ sEx.next_header_pos ∧ streamEx sEx.offset 5 = .ok 5) ∧
    (read_bytes streamEx sEx 5 = ({ sEx with offset := sEx.offset + 5 }, .ok ()) ∧
     skip_bytes sEx 5 = ({ sEx with offset := sEx.offset + 5 }, .ok ()) ∧
     sEx.offset + 5 ≤ sEx.next_header_pos) :=
  ⟨⟨by decide, rfl⟩,
    (read_skip_bytes_bounds streamEx sEx 5).2.2 (by decide) rfl⟩

/-- A successful `headerLoop` outcome comes from a successful decode at the
loop's fixed offset. -/
lemma headerLoop_ok {decode : Nat → Nat → Option (Nat × Nat)}
    {offset finish maxSize : Nat} :
    ∀ {fuel nbytes hl cps},
      headerLoop decode offset finish maxSize nbytes fuel = .ok (hl, cps) →
      ∃ nb, decode offset nb = some (hl, cps) := by
  intro fuel
  induction fuel with
  | zero =>
    intro nbytes hl cps h
    simp [headerLoop] at h
  | succ fuel ih =>
    intro nbytes hl cps h
    rw [headerLoop] at h
    rcases hd : decode offset (min nbytes (finish - offset)) with _ | pr
    · rw [hd] at h
      by_cases hc : maxSize < min nbytes (finish - offset) ∨
          finish ≤ offset + min nbytes (finish - offset)
      · rw [if_pos hc] at h
        exact absurd h (by simp)
      · rw [if_neg hc] at h
        exact ih h
    · rw [hd] at h
      exact ⟨min nbytes (finish - offset), by rw [hd, Except.ok.inj h]⟩

/-- Claim C10: `next_header` returns InternalError without changing state when
the offset differs from the expected next-header position, EndOfFile at the
finish offset, and on success advances the offset by the decoded header length
and sets the next-header position to the new offset plus the decoded
`compressed_page_size`; when every decodable header has positive length,
each successful call strictly increases the offset. -/
theorem next_header_spec (decode : Nat → Nat → Option (Nat × Nat)) (maxSize : Nat)
    (s : PageReaderState) :
    (s.offset ≠ s.next_header_pos →
      next_header decode maxSize s = (s, .error .internalError)) ∧
    (s.offset = s.next_header_pos → s.finish_offset ≤ s.offset →
      next_header decode maxSize s = (s, .error .endOfFile)) ∧
    (∀ s', next_header decode maxSize s = (s', .ok ()) →
      ∃ hl cps, s'.offset = s.offset + hl ∧ s'.next_header_pos = s'.offset + cps ∧
        ∃ nb, decode s.offset nb = some (hl, cps)) ∧
    ((∀ o n hl cps, decode o n = some (hl, cps) → 0 < hl) →
      ∀ s', next_header decode maxSize s = (s', .ok ()) → s.offset < s'.offset) := by
  have hsucc : ∀ s', next_header decode maxSize s = (s', .ok ()) →
      ∃ hl cps, s'.offset = s.offset + hl ∧ s'.next_header_pos = s'.offset + cps ∧
        ∃ nb, decode s.offset nb = some (hl, cps) := by
    intro s' h
    rw [next_header] at h
    by_cases h1 : s.offset ≠ s.next_header_pos
    · rw [if_pos h1] at h
      simp at h
    · rw [if_neg h1] at h
      by_cases h2 : s.finish_offset ≤ s.offset
      · rw [if_pos h2] at h
        simp at h
      · rw [if_neg h2] at h
        rcases hL : headerLoop decode s.offset s.finish_offset maxSize
            kHeaderInitSize (s.finish_offset + maxSize + 2) with e | pr
        · rw [hL] at h
          simp at h
        · obtain ⟨hl, cps⟩ := pr
          rw [hL] at h
          have hfst : _ = s' := congrArg Prod.fst h
          subst hfst
          exact ⟨hl, cps, rfl, rfl, headerLoop_ok hL⟩
  refine ⟨?_, ?_, hsucc, ?_⟩
  · intro h
    rw [next_header, if_pos h]
  · intro h1 h2
    rw [next_header, if_neg (not_not_intro h1), if_pos h2]
  · intro hpos s' h
    obtain ⟨hl, cps, ho, _, nb, hd⟩ := hsucc s' h
    have := hpos _ _ _ _ hd
    omega

/-- A decoder that always finds a header of length 3 and page size 7. -/
def decodeEx : Nat → Nat → Option (Nat × Nat) := fun _ _ => some (3, 7)

/-- A reader state correctly positioned at its next header. -/
def sNH : PageReaderState :=
  { offset := 5, next_header_pos := 5, start_offset := 0, finish_offset := 50 }

/-- The state after one successful `next_header` call from `sNH`. -/
def sNH2 : PageReaderState :=
  { offset := 8, next_header_pos := 15, start_offset := 0, finish_offset := 50 }

/-- Witness for C10 at a concrete state and decoder. -/
theorem next_header_spec_witness :
    (∀ o n hl cps, decodeEx o n = some (hl, cps) → 0 < hl) ∧
    sNH.offset < sNH2.offset :=
  ⟨fun o n hl cps h => by
      simp only [decodeEx, Option.some.injEq, Prod.mk.injEq] at h
      omega,
    (next_header_spec decodeEx 100 sNH).2.2.2
      (fun o n hl cps h => by
        simp only [decodeEx, Option.some.injEq, Prod.mk.injEq] at h
        omega)
      sNH2 rfl⟩

/-! ## CompressionContextPool, embedded from the same source file -/

/-- `CompressionContextPool::add(InternalRef ptr)`, the body reached through
`ReturnToPoolDeleter::operator()` when a pooled context is released.  The
resetter mutates the context in place and returns a `Status`; it is modelled
as a state transformer `σ → σ × Bool` giving the new object state and whether
the `Status` was OK.  As in the source, the resetter is invoked twice on the
released object, the first `Status` is discarded, and the object is pushed
onto the free-list stack only when the second invocation reports OK (otherwise
the `unique_ptr` destroys it). -/
def poolAdd {σ : Type} (resetter : σ → σ × Bool) (stack : List σ) (t : σ) :
    List σ :=
  let r1 := resetter t
  let r2 := resetter r1.1
  if r2.2 then stack ++ [r2.1] else stack

/-- A stateful resetter: state `n` steps to `n + 1`, and the reset reports OK
only when applied to state 1. -/
def resetEx : Nat → Nat × Bool := fun n => (n + 1, n == 1)

/-- Claim C8 is violated by the source: releasing an object in state 0 to an
empty pool, the resetter applied to the released object reports failure
(`(resetEx 0).2 = false`), yet `add` pushes the (twice-reset) object onto the
free list instead of discarding it, because the first invocation's `Status`
is discarded and only the duplicated second invocation is checked. -/
theorem poolAdd_pools_after_failed_reset :
    (resetEx 0).2 = false ∧ poolAdd resetEx [] 0 = [2] := by
  exact ⟨rfl, rfl⟩

end StarRocks
